import Mathlib

/-!
Verification of the `audio_overlay` crate (src/src/lib.rs).

Shallow embedding conventions:
* A sample of a signed integer representation of width `w` bits is an `Int`
  in the interval `[iMin w, iMax w]`.
* Rust arithmetic `a + b` on a `w`-bit signed integer is overflow-checked:
  it is modelled as `checkedAdd w`, returning `none` where Rust raises an
  overflow error (panic in builds with overflow checks).
* The Rust narrowing cast `x as iW` wraps two-complement style; it is
  modelled by `wrapCast w`.
* `Vec<T>` is a `List Int`; in-place mutation is explicit state passing.
* The start index that the Rust code computes as
  `(time * framerate as f64) as usize` (the floor of the product for the
  non-negative times the contract allows) is taken as a `Nat` parameter
  `index`; the `f64` computation itself is outside the embedding.
-/

/-- Minimum value of a signed integer representation of width `w` bits,
e.g. `iMin 16 = -32768` (`i16::MIN`). -/
def iMin (w : Nat) : Int := -(2 ^ (w - 1))

/-- Maximum value of a signed integer representation of width `w` bits,
e.g. `iMax 16 = 32767` (`i16::MAX`). -/
def iMax (w : Nat) : Int := 2 ^ (w - 1) - 1

/-- Rust narrowing cast `x as iW` to a `w`-bit signed integer
(two-complement wrap-around). -/
def wrapCast (w : Nat) (x : Int) : Int :=
  (x + 2 ^ (w - 1)) % 2 ^ w - 2 ^ (w - 1)

/-- Rust `a + b` on a `w`-bit signed integer with overflow checking:
`none` models the overflow error Rust raises when the sum leaves the
representation. -/
def checkedAdd (w : Nat) (a b : Int) : Option Int :=
  if iMin w ≤ a + b ∧ a + b ≤ iMax w then some (a + b) else none

/-- lib.rs 120-131: `fn clamp<T>(value, min, max)`. -/
def clamp (value mn mx : Int) : Int :=
  if value > mx then mx
  else if value < mn then mn
  else value

/-- lib.rs 147-169: the four integer `Overlayable<T, U>` impls, for `T` of
width `w` and `U` of width `2 * w`:
`clamp((a + b) as U, min, max) as T`.
Note that in the source the sum `a + b` is computed at the narrow width `w`
BEFORE the cast to `U`, so it is `checkedAdd w`, and only the result of the
clamp is narrowed back by `wrapCast w`. -/
def Overlayable.overlay (w : Nat) (a b mn mx : Int) : Option Int :=
  (checkedAdd w a b).map fun s => wrapCast w (clamp s mn mx)

/-- lib.rs 198-236: `ValueBounds<U>::min()` for the integer type `U` of
width `u` returns the minimum of the type one step narrower (half the
width), e.g. `ValueBounds<i32>::min() = i16::MIN as i32`. -/
def ValueBounds.min (u : Nat) : Int := iMin (u / 2)

/-- lib.rs 198-236: `ValueBounds<U>::max()` for the integer type `U` of
width `u`, e.g. `ValueBounds<i32>::max() = i16::MAX as i32`. -/
def ValueBounds.max (u : Nat) : Int := iMax (u / 2)

/-- lib.rs 106-113: the body of the overlay loop at one position, where `d`
is the current destination sample and `v` the source sample: if `d` is the
representation zero the source sample is written directly; otherwise the
two are combined with `Overlayable::overlay`. -/
def mixSample (w : Nat) (mn mx d v : Int) : Option Int :=
  if d = 0 then some v else Overlayable.overlay w d v mn mx

/-- lib.rs 98-116: the `for (i, &v) in src.iter().enumerate()` loop of
`overlay`. `len` is the length of `dst` captured before the loop; `index`
is the running write position; `add` is the grow flag. `none` propagates an
overflow error from the mixing rule. -/
def overlayLoop (w : Nat) (mn mx : Int) (len : Nat) (add : Bool) :
    List Int → List Int → Nat → Option (List Int)
  | [], dst, _ => some dst
  | v :: rest, dst, index =>
    if len ≤ index then
      if add then some (dst ++ v :: rest) else some dst
    else
      (mixSample w mn mx (dst.getD index 0) v).bind fun m =>
        overlayLoop w mn mx len add rest (dst.set index m) (index + 1)

/-- lib.rs 74-117: `pub fn overlay<T, U>(src, dst, time, framerate, add)`
for the integer representation of width `w`, with the start index already
computed. The bounds passed to the loop are `ValueBounds<U>` for the
widened type `U` of width `2 * w`. -/
def overlay (w : Nat) (src dst : List Int) (index : Nat) (add : Bool) :
    Option (List Int) :=
  let len := dst.length
  if len ≤ index then
    if add then some (dst ++ List.replicate (index - len) 0 ++ src)
    else some dst
  else
    overlayLoop w (ValueBounds.min (2 * w)) (ValueBounds.max (2 * w)) len add
      src dst index

/-- The clamp formula exactly as the spec words it, including the literal
condition `min if v < v`. -/
def clampSpecLiteral (v mn mx : Int) : Int :=
  if v > mx then mx
  else if v < v then mn
  else v

/- ### Helper lemmas -/

/-- Narrowing a value already inside the `w`-bit range is the identity. -/
theorem wrapCast_of_mem (w : Nat) (x : Int) (hw : 1 ≤ w)
    (h1 : iMin w ≤ x) (h2 : x ≤ iMax w) : wrapCast w x = x := by
  unfold wrapCast
  unfold iMin at h1
  unfold iMax at h2
  have hsplit : (2 : Int) ^ w = 2 ^ (w - 1) * 2 := by
    rw [← pow_succ]
    congr 1
    omega
  have hp : (0 : Int) < 2 ^ (w - 1) := by positivity
  have h0 : (0 : Int) ≤ x + 2 ^ (w - 1) := by linarith
  have hlt : x + 2 ^ (w - 1) < 2 ^ w := by
    rw [hsplit]
    linarith
  rw [Int.emod_eq_of_lt h0 hlt]
  ring

/-- The clamped value lies between the bounds. -/
theorem clamp_mem (v mn mx : Int) (h : mn ≤ mx) :
    mn ≤ clamp v mn mx ∧ clamp v mn mx ≤ mx := by
  unfold clamp
  split_ifs <;> omega

/-- Clamping a value already between the bounds is the identity. -/
theorem clamp_of_mem (v mn mx : Int) (h1 : mn ≤ v) (h2 : v ≤ mx) :
    clamp v mn mx = v := by
  unfold clamp
  split_ifs <;> omega

/-- Writing back the value already stored at a valid position leaves the
list unchanged. -/
theorem set_getD_self (l : List Int) (i : Nat) (h : i < l.length) :
    l.set i (l.getD i 0) = l := by
  apply List.ext_getElem?
  intro n
  by_cases hn : i = n
  · subst hn
    rw [List.getElem?_set_self h, List.getD_eq_getElem?_getD,
      List.getElem?_eq_getElem h]
    rfl
  · rw [List.getElem?_set_ne hn]

/-- The bounds handed to the loop for width `w` samples are the bounds of
width `w` itself (`ValueBounds` of the widened type returns the bounds one
step narrower than it). -/
theorem valueBounds_double (w : Nat) :
    ValueBounds.min (2 * w) = iMin w ∧ ValueBounds.max (2 * w) = iMax w := by
  unfold ValueBounds.min ValueBounds.max
  rw [Nat.mul_div_cancel_left w (by omega)]
  exact ⟨rfl, rfl⟩

/- ### Claims -/

/-- C1: the claim states that `Overlayable::overlay` widens both operands
before adding, so the integer mix never hits an overflow error. The code
(lib.rs 149/155/161/167) computes `a + b` at the narrow width first and
only casts the sum, contradicting its own documentation (lib.rs 73 and
141); at `a = b = 16384` (i16) the narrow addition overflows, so the mix
and the whole overlay call raise an overflow error (`none`). -/
theorem c1_narrow_add_overflows :
    Overlayable.overlay 16 16384 16384 (ValueBounds.min 32) (ValueBounds.max 32)
      = none ∧
    overlay 16 [16384] [16384] 0 false = none := by
  constructor
  · decide
  · decide

/-- C2 counterexample: the claim states that for 16-bit samples the widened
sum is clamped using the 8-bit bounds -128 and 127. At `a = 200, b = 100`
the code produces 300, while clamping with the 8-bit bounds would give 127:
the bounds actually used are those of i16 itself, not of i8. -/
theorem c2_counterexample :
    Overlayable.overlay 16 200 100 (ValueBounds.min 32) (ValueBounds.max 32)
      = some 300 ∧
    clamp (200 + 100) (iMin 8) (iMax 8) = 127 ∧
    (300 : Int) ≠ clamp (200 + 100) (iMin 8) (iMax 8) := by
  refine ⟨by decide, by decide, by decide⟩

/-- C2 (amended): for width `w` samples the mixing rule clamps the sum to
the bounds of the representation `w` itself, widened into the `2 * w`-bit
type (`ValueBounds` of the widened type), then narrows back, and the
narrowing is lossless after the clamp; whenever the (narrow, see C1)
addition does not overflow the mix equals `clamp (a + b) (iMin w) (iMax w)`. -/
theorem c2_clamp_uses_own_bounds (w : Nat) (a b : Int) (hw : 1 ≤ w)
    (h : iMin w ≤ a + b ∧ a + b ≤ iMax w) :
    ValueBounds.min (2 * w) = iMin w ∧
    ValueBounds.max (2 * w) = iMax w ∧
    Overlayable.overlay w a b (ValueBounds.min (2 * w)) (ValueBounds.max (2 * w))
      = some (clamp (a + b) (iMin w) (iMax w)) := by
  obtain ⟨hmin, hmax⟩ := valueBounds_double w
  refine ⟨hmin, hmax, ?_⟩
  rw [hmin, hmax]
  unfold Overlayable.overlay checkedAdd
  rw [if_pos h]
  have hb : iMin w ≤ iMax w := by
    unfold iMin iMax
    have hp : (0 : Int) < 2 ^ (w - 1) := by positivity
    omega
  obtain ⟨hc1, hc2⟩ := clamp_mem (a + b) (iMin w) (iMax w) hb
  simp [wrapCast_of_mem w _ hw hc1 hc2]

/-- Witness for C2: at `w = 16, a = 200, b = 100` the hypotheses hold and
the mix clamps with the 16-bit bounds. -/
theorem c2_clamp_uses_own_bounds_witness :
    ((1 ≤ 16 ∧ iMin 16 ≤ (200 : Int) + 100 ∧ (200 : Int) + 100 ≤ iMax 16) ∧
    (ValueBounds.min (2 * 16) = iMin 16 ∧
     ValueBounds.max (2 * 16) = iMax 16 ∧
     Overlayable.overlay 16 200 100 (ValueBounds.min (2 * 16))
        (ValueBounds.max (2 * 16))
       = some (clamp (200 + 100) (iMin 16) (iMax 16)))) :=
  ⟨⟨by decide, by decide, by decide⟩,
    c2_clamp_uses_own_bounds 16 200 100 (by decide) ⟨by decide, by decide⟩⟩

/-- C3: if the start index is at or past the end of the destination and the
grow flag is false, `overlay` returns the destination unchanged (same
length, same contents). -/
theorem c3_past_end_no_grow (w : Nat) (src dst : List Int) (index : Nat)
    (h : dst.length ≤ index) :
    overlay w src dst index false = some dst := by
  unfold overlay
  simp [h]

/-- Witness for C3 at `w = 16, src = [1], dst = [5], index = 2`. -/
theorem c3_past_end_no_grow_witness :
    ([(5 : Int)].length ≤ 2) ∧ overlay 16 [1] [5] 2 false = some [5] :=
  ⟨by decide, c3_past_end_no_grow 16 [1] [5] 2 (by decide)⟩

/-- C6 counterexample: the claim words the clamp as
`max if v > max; min if v < v; else v`; the condition `v < v` never holds,
so at `v = -200, min = -128, max = 127` (with `min ≤ max`) the worded
formula returns -200 while the code clamp returns -128. -/
theorem c6_counterexample :
    (-128 : Int) ≤ 127 ∧
    clamp (-200) (-128) 127 = -128 ∧
    clampSpecLiteral (-200) (-128) 127 = -200 ∧
    clamp (-200) (-128) 127 ≠ clampSpecLiteral (-200) (-128) 127 := by
  refine ⟨by decide, by decide, by decide, by decide⟩

/-- C6 (amended): with the condition corrected to `v < min`, the clamp
satisfies, for all `min ≤ max`:
`clamp v min max = max if v > max; min if v < min; else v`, which is the
simple saturating clamp `max min (min v max)` with no rounding. -/
theorem c6_clamp_saturating (v mn mx : Int) (h : mn ≤ mx) :
    clamp v mn mx = (if v > mx then mx else if v < mn then mn else v) ∧
    clamp v mn mx = Max.max mn (Min.min v mx) := by
  constructor
  · rfl
  · unfold clamp
    split_ifs <;> omega

/-- Witness for C6 at `v = -200, min = -128, max = 127`. -/
theorem c6_clamp_saturating_witness :
    ((-128 : Int) ≤ 127) ∧
    (clamp (-200) (-128) 127
        = (if (-200 : Int) > 127 then 127 else if (-200 : Int) < -128 then -128
           else -200) ∧
     clamp (-200) (-128) 127 = Max.max (-128) (Min.min (-200) 127)) :=
  ⟨by decide, c6_clamp_saturating (-200) (-128) 127 (by decide)⟩

/-- C8: the mixing rule is commutative: for every width and all samples and
bounds, overlaying `a` onto `b` equals overlaying `b` onto `a`. -/
theorem c8_mix_comm (w : Nat) (a b mn mx : Int) :
    Overlayable.overlay w a b mn mx = Overlayable.overlay w b a mn mx := by
  unfold Overlayable.overlay checkedAdd
  rw [Int.add_comm a b]

/-- The loop never modifies positions strictly before the write index that
lie inside the captured length, whatever the grow flag. -/
theorem overlayLoop_preserve_lt (w : Nat) (mn mx : Int) (len : Nat)
    (add : Bool) :
    ∀ (src dst : List Int) (index : Nat) (out : List Int),
      dst.length = len →
      overlayLoop w mn mx len add src dst index = some out →
      ∀ p, p < index → p < len → out[p]? = dst[p]? := by
  intro src
  induction src with
  | nil =>
    intro dst index out hlen heq p hp hpl
    simp only [overlayLoop, Option.some.injEq] at heq
    subst heq
    rfl
  | cons v rest ih =>
    intro dst index out hlen heq p hp hpl
    simp only [overlayLoop] at heq
    by_cases hidx : len ≤ index
    · rw [if_pos hidx] at heq
      cases add
      · simp only [Bool.false_eq_true, if_false, Option.some.injEq] at heq
        subst heq
        rfl
      · simp only [if_true, Option.some.injEq] at heq
        subst heq
        rw [List.getElem?_append_left (by omega)]
    · rw [if_neg hidx] at heq
      cases hmix : mixSample w mn mx (dst.getD index 0) v with
      | none =>
        rw [hmix, Option.none_bind] at heq
        cases heq
      | some m =>
        rw [hmix, Option.some_bind] at heq
        have hout := ih (dst.set index m) (index + 1) out
          (by rw [List.length_set]; exact hlen) heq p (by omega) hpl
        rw [hout, List.getElem?_set_ne (by omega)]

/-- With the grow flag set, a successful loop run ends with length
`max len (index + src.length)`. -/
theorem overlayLoop_true_length (w : Nat) (mn mx : Int) (len : Nat) :
    ∀ (src dst : List Int) (index : Nat) (out : List Int),
      dst.length = len → index ≤ len →
      overlayLoop w mn mx len true src dst index = some out →
      out.length = max len (index + src.length) := by
  intro src
  induction src with
  | nil =>
    intro dst index out hlen hle heq
    simp only [overlayLoop, Option.some.injEq] at heq
    subst heq
    simp only [List.length_nil]
    omega
  | cons v rest ih =>
    intro dst index out hlen hle heq
    simp only [overlayLoop] at heq
    by_cases hidx : len ≤ index
    · rw [if_pos hidx] at heq
      simp only [if_true, Option.some.injEq] at heq
      subst heq
      simp only [List.length_append, List.length_cons]
      omega
    · rw [if_neg hidx] at heq
      cases hmix : mixSample w mn mx (dst.getD index 0) v with
      | none =>
        rw [hmix, Option.none_bind] at heq
        cases heq
      | some m =>
        rw [hmix, Option.some_bind] at heq
        have hout := ih (dst.set index m) (index + 1) out
          (by rw [List.length_set]; exact hlen) (by omega) heq
        rw [hout]
        simp only [List.length_cons]
        omega

/-- C4: if the start index is at or past the end of the destination and the
grow flag is set, the result has length `index + src.length`, keeps the
original contents on `[0, L)`, holds representation zero on `[L, index)`,
and holds `src` verbatim on `[index, index + src.length)`. -/
theorem c4_past_end_grow (w : Nat) (src dst : List Int) (index : Nat)
    (h : dst.length ≤ index) :
    ∃ out, overlay w src dst index true = some out ∧
      out.length = index + src.length ∧
      (∀ p, p < dst.length → out[p]? = dst[p]?) ∧
      (∀ p, dst.length ≤ p → p < index → out[p]? = some 0) ∧
      (∀ j, j < src.length → out[index + j]? = src[j]?) := by
  refine ⟨dst ++ List.replicate (index - dst.length) 0 ++ src, ?_, ?_, ?_, ?_, ?_⟩
  · simp only [overlay]
    rw [if_pos h, if_pos trivial]
  · simp only [List.length_append, List.length_replicate]
    omega
  · intro p hp
    rw [List.getElem?_append_left
        (by simp only [List.length_append, List.length_replicate]; omega),
      List.getElem?_append_left hp]
  · intro p hp1 hp2
    rw [List.getElem?_append_left
        (by simp only [List.length_append, List.length_replicate]; omega),
      List.getElem?_append_right hp1, List.getElem?_replicate_of_lt (by omega)]
  · intro j hj
    rw [List.getElem?_append_right
        (by simp only [List.length_append, List.length_replicate]; omega)]
    simp only [List.length_append, List.length_replicate]
    congr 1
    omega

/-- Witness for C4 at `w = 16, src = [4], dst = [5], index = 3`. -/
theorem c4_past_end_grow_witness :
    ([(5 : Int)].length ≤ 3) ∧
    (∃ out, overlay 16 [4] [5] 3 true = some out ∧
      out.length = 3 + [(4 : Int)].length ∧
      (∀ p, p < [(5 : Int)].length → out[p]? = [(5 : Int)][p]?) ∧
      (∀ p, [(5 : Int)].length ≤ p → p < 3 → out[p]? = some 0) ∧
      (∀ j, j < [(4 : Int)].length → out[3 + j]? = [(4 : Int)][j]?)) :=
  ⟨by decide, c4_past_end_grow 16 [4] [5] 3 (by decide)⟩

/-- C9: whenever a call with the grow flag set completes, the resulting
length is `max L (index + src.length)`; in particular the length is
unchanged when the source laid at `index` fits inside the destination. -/
theorem c9_grow_length (w : Nat) (src dst out : List Int) (index : Nat)
    (h : overlay w src dst index true = some out) :
    out.length = max dst.length (index + src.length) := by
  simp only [overlay] at h
  by_cases hidx : dst.length ≤ index
  · rw [if_pos hidx, if_pos trivial] at h
    simp only [Option.some.injEq] at h
    subst h
    simp only [List.length_append, List.length_replicate]
    omega
  · rw [if_neg hidx] at h
    exact overlayLoop_true_length w _ _ _ src dst index out rfl (by omega) h

/-- Witness for C9 at `w = 16, src = [1], dst = [0, 5], index = 0` (the
source fits, so the length stays 2). -/
theorem c9_grow_length_witness :
    overlay 16 [1] [0, 5] 0 true = some [1, 5] ∧
    ([(1 : Int), 5].length = max [(0 : Int), 5].length (0 + [(1 : Int)].length)) :=
  ⟨by decide, c9_grow_length 16 [1] [0, 5] [1, 5] 0 (by decide)⟩

/-- C10: in every branch of `overlay` (early return, zero padding growth,
in-place mixing, verbatim append), destination positions strictly before
the start index are never modified. -/
theorem c10_prefix_untouched (w : Nat) (src dst out : List Int) (index : Nat)
    (add : Bool) (h : overlay w src dst index add = some out) :
    ∀ p, p < index → p < dst.length → out[p]? = dst[p]? := by
  intro p hp hpl
  simp only [overlay] at h
  by_cases hidx : dst.length ≤ index
  · rw [if_pos hidx] at h
    cases add
    · simp only [Bool.false_eq_true, if_false, Option.some.injEq] at h
      subst h
      rfl
    · simp only [if_true, Option.some.injEq] at h
      subst h
      rw [List.getElem?_append_left
          (by simp only [List.length_append, List.length_replicate]; omega),
        List.getElem?_append_left hpl]
  · rw [if_neg hidx] at h
    exact overlayLoop_preserve_lt w _ _ _ add src dst index out rfl h p hp hpl

/-- Witness for C10 at `w = 16, src = [7], dst = [5, 6], index = 1,
add = true`: position 0 keeps the value 5. -/
theorem c10_prefix_untouched_witness :
    overlay 16 [7] [5, 6] 1 true = some [5, 13] ∧
    (∀ p, p < 1 → p < [(5 : Int), 6].length →
      [(5 : Int), 13][p]? = [(5 : Int), 6][p]?) :=
  ⟨by decide, c10_prefix_untouched 16 [7] [5, 6] [5, 13] 1 true (by decide)⟩

/-- Full characterization of a successful loop run with the grow flag
clear: the length is preserved, positions outside
`[index, min len (index + src.length))` are untouched, and every position
inside that window holds the result of `mixSample` applied to the previous
destination sample and the matching source sample. -/
theorem overlayLoop_false_spec (w : Nat) (mn mx : Int) (len : Nat) :
    ∀ (src dst : List Int) (index : Nat) (out : List Int),
      dst.length = len →
      overlayLoop w mn mx len false src dst index = some out →
      out.length = len ∧
      (∀ p, p < index ∨ min len (index + src.length) ≤ p →
        out[p]? = dst[p]?) ∧
      (∀ p, index ≤ p → p < min len (index + src.length) →
        mixSample w mn mx (dst.getD p 0) (src.getD (p - index) 0)
          = some (out.getD p 0)) := by
  intro src
  induction src with
  | nil =>
    intro dst index out hlen heq
    simp only [overlayLoop, Option.some.injEq] at heq
    subst heq
    refine ⟨hlen, fun p _ => rfl, fun p hp1 hp2 => ?_⟩
    simp only [List.length_nil] at hp2
    omega
  | cons v rest ih =>
    intro dst index out hlen heq
    simp only [overlayLoop] at heq
    by_cases hidx : len ≤ index
    · rw [if_pos hidx] at heq
      simp only [Bool.false_eq_true, if_false, Option.some.injEq] at heq
      subst heq
      refine ⟨hlen, fun p _ => rfl, fun p hp1 hp2 => ?_⟩
      omega
    · rw [if_neg hidx] at heq
      cases hmix : mixSample w mn mx (dst.getD index 0) v with
      | none =>
        rw [hmix, Option.none_bind] at heq
        cases heq
      | some m =>
        rw [hmix, Option.some_bind] at heq
        obtain ⟨ih1, ih2, ih3⟩ := ih (dst.set index m) (index + 1) out
          (by rw [List.length_set]; exact hlen) heq
        refine ⟨ih1, ?_, ?_⟩
        · intro p hp
          simp only [List.length_cons] at hp
          have hpne : p ≠ index := by omega
          have hpre := ih2 p (by omega)
          rw [hpre]
          exact List.getElem?_set_ne (by omega)
        · intro p hp1 hp2
          simp only [List.length_cons] at hp2
          by_cases hpe : p = index
          · subst hpe
            have hself : out[p]? = some m := by
              rw [ih2 p (Or.inl (by omega))]
              exact List.getElem?_set_self (by omega)
            simp only [Nat.sub_self, List.getD_cons_zero]
            rw [hmix]
            rw [List.getD_eq_getElem?_getD, hself]
            rfl
          · have hgt : index + 1 ≤ p := by omega
            have hrec := ih3 p hgt (by omega)
            rw [List.getD_eq_getElem?_getD, List.getElem?_set_ne (by omega),
              ← List.getD_eq_getElem?_getD] at hrec
            have harg : (v :: rest).getD (p - index) 0
                = rest.getD (p - (index + 1)) 0 := by
              have hsub : p - index = (p - (index + 1)) + 1 := by omega
              rw [hsub, List.getD_cons_succ]
            rw [harg]
            exact hrec

/-- C5: when the start index lies inside the destination and the grow flag
is clear, a completed call preserves the length (so positions at or after
the original end are never written, the last conjunct making that
explicit), leaves positions before the index unchanged, and stores at
every position of the overlapped window the `mixSample` combination: the
source value directly if the previous destination value was zero,
otherwise the bounded-addition mix of the two. -/
theorem c5_in_range_no_grow (w : Nat) (src dst out : List Int) (index : Nat)
    (hi : index < dst.length)
    (h : overlay w src dst index false = some out) :
    out.length = dst.length ∧
    (∀ p, p < index → out[p]? = dst[p]?) ∧
    (∀ p, index ≤ p → p < min dst.length (index + src.length) →
      mixSample w (ValueBounds.min (2 * w)) (ValueBounds.max (2 * w))
        (dst.getD p 0) (src.getD (p - index) 0) = some (out.getD p 0)) ∧
    (∀ p, dst.length ≤ p → out[p]? = none) := by
  simp only [overlay] at h
  rw [if_neg (by omega)] at h
  obtain ⟨h1, h2, h3⟩ := overlayLoop_false_spec w _ _ _ src dst index out rfl h
  exact ⟨h1, fun p hp => h2 p (Or.inl hp), h3,
    fun p hp => List.getElem?_eq_none (by omega)⟩

/-- Witness for C5 at `w = 16, src = [3], dst = [5, 7], index = 0`: the
mixed result is `[8, 7]`. -/
theorem c5_in_range_no_grow_witness :
    (0 < [(5 : Int), 7].length ∧ overlay 16 [3] [5, 7] 0 false = some [8, 7]) ∧
    (([(8 : Int), 7].length = [(5 : Int), 7].length) ∧
     (∀ p, p < 0 → [(8 : Int), 7][p]? = [(5 : Int), 7][p]?) ∧
     (∀ p, 0 ≤ p → p < min [(5 : Int), 7].length (0 + [(3 : Int)].length) →
       mixSample 16 (ValueBounds.min (2 * 16)) (ValueBounds.max (2 * 16))
         ([(5 : Int), 7].getD p 0) ([(3 : Int)].getD (p - 0) 0)
         = some ([(8 : Int), 7].getD p 0)) ∧
     (∀ p, [(5 : Int), 7].length ≤ p → [(8 : Int), 7][p]? = none)) :=
  ⟨⟨by decide, by decide⟩,
    c5_in_range_no_grow 16 [3] [5, 7] [8, 7] 0 (by decide) (by decide)⟩

/-- For a sample in range, mixing zero onto it with the bounds the loop
uses returns it unchanged. -/
theorem overlay_zero_right (w : Nat) (d : Int) (hw : 1 ≤ w)
    (h1 : iMin w ≤ d) (h2 : d ≤ iMax w) :
    Overlayable.overlay w d 0 (iMin w) (iMax w) = some d := by
  unfold Overlayable.overlay checkedAdd
  rw [if_pos (by omega)]
  show some (wrapCast w (clamp (d + 0) (iMin w) (iMax w))) = some d
  rw [add_zero, clamp_of_mem d _ _ h1 h2, wrapCast_of_mem w d hw h1 h2]

/-- Overlaying an all-zero source with the grow flag clear changes
nothing: each loop step either rewrites a zero with zero or mixes zero
onto an in-range sample. -/
theorem overlayLoop_zero_src (w : Nat) (len : Nat) (hw : 1 ≤ w) :
    ∀ (src dst : List Int) (index : Nat),
      (∀ x ∈ src, x = 0) →
      dst.length = len →
      (∀ x ∈ dst, iMin w ≤ x ∧ x ≤ iMax w) →
      overlayLoop w (iMin w) (iMax w) len false src dst index = some dst := by
  intro src
  induction src with
  | nil =>
    intro dst index _ _ _
    rfl
  | cons v rest ih =>
    intro dst index hz hlen hd
    have hv : v = 0 := hz v (List.mem_cons_self v rest)
    subst hv
    simp only [overlayLoop]
    by_cases hidx : len ≤ index
    · rw [if_pos hidx]
      simp
    · rw [if_neg hidx]
      have hlt : index < dst.length := by omega
      have hm : mixSample w (iMin w) (iMax w) (dst.getD index 0) 0
          = some (dst.getD index 0) := by
        unfold mixSample
        by_cases hd0 : dst.getD index 0 = 0
        · rw [if_pos hd0, hd0]
        · rw [if_neg hd0]
          have hmem : dst.getD index 0 ∈ dst := by
            rw [List.getD_eq_getElem?_getD, List.getElem?_eq_getElem hlt]
            exact List.getElem_mem hlt
          obtain ⟨hb1, hb2⟩ := hd _ hmem
          exact overlay_zero_right w _ hw hb1 hb2
      rw [hm, Option.some_bind, set_getD_self dst index hlt]
      exact ih dst (index + 1) (fun x hx => hz x (List.mem_cons_of_mem 0 hx))
        hlen hd

/-- C7: overlaying a source consisting entirely of representation zero
onto a destination of in-range samples, with the grow flag clear and the
start index inside the destination, returns the destination unchanged
(in particular unchanged on the overlapped region). -/
theorem c7_zero_overlay (w : Nat) (src dst : List Int) (index : Nat)
    (hw : 1 ≤ w)
    (hz : ∀ x ∈ src, x = 0)
    (hd : ∀ x ∈ dst, iMin w ≤ x ∧ x ≤ iMax w)
    (hi : index < dst.length) :
    overlay w src dst index false = some dst := by
  simp only [overlay]
  rw [if_neg (by omega)]
  obtain ⟨hmin, hmax⟩ := valueBounds_double w
  rw [hmin, hmax]
  exact overlayLoop_zero_src w dst.length hw src dst index hz rfl hd

/-- Witness for C7 at `w = 16, src = [0], dst = [9], index = 0`. -/
theorem c7_zero_overlay_witness :
    ((1 ≤ 16) ∧ (∀ x ∈ ([(0 : Int)] : List Int), x = 0) ∧
     (∀ x ∈ ([(9 : Int)] : List Int), iMin 16 ≤ x ∧ x ≤ iMax 16) ∧
     0 < [(9 : Int)].length) ∧
    overlay 16 [0] [9] 0 false = some [9] :=
  ⟨⟨by decide, by decide, by decide, by decide⟩,
    c7_zero_overlay 16 [0] [9] 0 (by decide) (by decide) (by decide) (by decide)⟩
